import Mathlib

/-!
Shallow embedding of `main.py`: a tree of network inventory nodes
(Network / Host / Disk / Partition / Cpu / Memory) with a recursive
prefix-aware line renderer, a deep-copy operation and a linear search
by host name.  Python generators become `List String`; Python `str` of
an integer becomes `toString` on `Int`; the mutable object heap used by
`copy.deepcopy` is modelled as an explicit store of host objects.
-/

namespace Olyahm

/-- `Partition.__init__` fields: index, gib, role. -/
structure Part where
  index : Int
  gib : Int
  role : String
deriving DecidableEq, Repr

/-- The hardware components a Host may hold: `Cpu`, `Memory`, `Disk`
(a `Disk` holds its list of partitions, as `self.parts`). -/
inductive Hw where
  | cpu (cores : Int) (mhz : Int)
  | memory (mib : Int)
  | disk (gib : Int) (parts : List Part)
deriving DecidableEq, Repr

/-- `Host.__init__` fields: name, addrs, hw (grown by `add_addr` / `add_hw`). -/
structure Host where
  name : String
  addrs : List String
  hw : List Hw
deriving DecidableEq, Repr

/-- `Network.__init__` fields: title, hosts (grown by `add_host`). -/
structure Network where
  title : String
  hosts : List Host
deriving DecidableEq, Repr

/-- The connector glyph `'\\-' if is_last else '+-'` used by every `_render`. -/
def connector (is_last : Bool) : String :=
  if is_last then "\\-" else "+-"

/-- `Partition._render`: one line `{prefix}{conn}[{index}]: {gib} GiB, {role}`. -/
def Part.render (pt : Part) (pre : String) (is_last : Bool) : List String :=
  [pre ++ connector is_last ++ "[" ++ toString pt.index ++ "]: " ++
    toString pt.gib ++ " GiB, " ++ pt.role]

/-- The `for i, x in enumerate(xs): yield from x._render(sub, i == len(xs) - 1)`
loop shared by `Disk._render`, the hardware loop of `Host._render` and
`Network._render`: every element is rendered with last-flag false except the
final one, which gets true. -/
def renderList (f : α → String → Bool → List String) (sub : String) :
    List α → List String
  | [] => []
  | [x] => f x sub true
  | x :: y :: rest => f x sub false ++ renderList f sub (y :: rest)

/-- `Cpu._render`, `Memory._render` and `Disk._render`, dispatched on the
hardware variant.  A `Disk` yields its own `HDD` line and then its partitions
with the extended prefix `prefix + ("  " if is_last else "| ")`. -/
def Hw.render (c : Hw) (pre : String) (is_last : Bool) : List String :=
  match c with
  | .cpu cores mhz =>
      [pre ++ connector is_last ++ "CPU, " ++ toString cores ++ " cores @ " ++
        toString mhz ++ "MHz"]
  | .memory mib =>
      [pre ++ connector is_last ++ "Memory, " ++ toString mib ++ " MiB"]
  | .disk gib parts =>
      (pre ++ connector is_last ++ "HDD, " ++ toString gib ++ " GiB") ::
        renderList Part.render (pre ++ (if is_last then "  " else "| ")) parts

/-- The address loop of `Host._render`:
`for idx, ip in enumerate(self.addrs): last_here = idx == total - 1 and not self.hw`.
`total` is `len(addrs) + len(hw)` and `hwEmpty` is `not self.hw`. -/
def addrLinesAux (sub : String) (total : Nat) (hwEmpty : Bool) :
    Nat → List String → List String
  | _, [] => []
  | idx, ip :: rest =>
      (sub ++ connector (decide (idx = total - 1) && hwEmpty) ++ ip) ::
        addrLinesAux sub total hwEmpty (idx + 1) rest

/-- `Host._render`: its own `Host: {name}` line, then the address lines, then
the hardware items, all with the extended prefix
`prefix + ("  " if is_last else "| ")`. -/
def Host.render (h : Host) (pre : String) (is_last : Bool) : List String :=
  (pre ++ connector is_last ++ "Host: " ++ h.name) ::
    (addrLinesAux (pre ++ (if is_last then "  " else "| "))
        (h.addrs.length + h.hw.length) h.hw.isEmpty 0 h.addrs ++
      renderList Hw.render (pre ++ (if is_last then "  " else "| ")) h.hw)

/-- `Network.find_host`: linear scan over `self.hosts`, returning the first
host whose `name` equals the query, else `None`. -/
def findHostList (fqdn : String) : List Host → Option Host
  | [] => none
  | h :: rest => if h.name = fqdn then some h else findHostList fqdn rest

def Network.find_host (n : Network) (fqdn : String) : Option Host :=
  findHostList fqdn n.hosts

/-- `Network._render`: its own undecorated `Network: {title}` line, then each
host rendered with prefix `""` (the arguments `prefix` and `is_last` are
ignored by the source, exactly as here). -/
def Network.render (n : Network) (_pre : String) (_is_last : Bool) : List String :=
  ("Network: " ++ n.title) :: renderList Host.render "" n.hosts

/-- The `StringIO` loop of `Node.draw`: write each line followed by `"\n"`. -/
def drawLoop (buf : String) : List String → String
  | [] => buf
  | l :: rest => drawLoop (buf ++ l ++ "\n") rest

def Network.draw (n : Network) : String :=
  drawLoop "" (n.render "" true)

/-- The `Node` base class: any of the six concrete variants, with `_render`
dispatched dynamically. -/
inductive Node where
  | cpu (cores : Int) (mhz : Int)
  | memory (mib : Int)
  | part (pt : Part)
  | disk (gib : Int) (parts : List Part)
  | host (h : Host)
  | network (n : Network)
deriving DecidableEq, Repr

def Node.render (nd : Node) (pre : String) (is_last : Bool) : List String :=
  match nd with
  | .cpu cores mhz => Hw.render (.cpu cores mhz) pre is_last
  | .memory mib => Hw.render (.memory mib) pre is_last
  | .part pt => Part.render pt pre is_last
  | .disk gib parts => Hw.render (.disk gib parts) pre is_last
  | .host h => Host.render h pre is_last
  | .network n => Network.render n pre is_last

/-- `Node.draw`: render with prefix `""` and `is_last` true, writing each line
plus a newline into the buffer. -/
def Node.draw (nd : Node) : String :=
  drawLoop "" (nd.render "" true)

/-! ### Heap model for `Node.clone` (`copy.deepcopy`)

Host objects are the mutable pieces the demo mutates
(`copy_net.hosts[0].name = "edited"`).  A store is a list of host objects
addressed by position; a heap-level network holds its title and the ids of
its host objects.  `copy.deepcopy` duplicates every host object at fresh
ids and returns a network referring only to the fresh copies. -/

/-- A heap-level network: title plus references (store indices) to its hosts. -/
structure NetworkH where
  title : String
  hostIds : List Nat
deriving DecidableEq, Repr

/-- Dereference a host id in the store (out-of-range ids yield a dummy). -/
def getHost (s : List Host) (i : Nat) : Host :=
  (s[i]?).getD ⟨"", [], []⟩

/-- Assign a new host object to an id (`M.hosts[0].name = ...` is the special
case of replacing a field of the object stored at that id). -/
def setHost (s : List Host) (i : Nat) (h : Host) : List Host :=
  s.set i h

/-- The recursive copying phase of `copy.deepcopy`: each referenced host
object is duplicated at a fresh id (the end of the store) and the fresh ids
are collected in order. -/
def copyHosts (s : List Host) : List Nat → List Host × List Nat
  | [] => (s, [])
  | i :: rest =>
      let s1 := s ++ [getHost s i]
      let p := copyHosts s1 rest
      (p.1, s.length :: p.2)

/-- `Node.clone` on a network: `copy.deepcopy(self)` — a new network object
whose host references all point at fresh deep copies. -/
def NetworkH.clone (n : NetworkH) (s : List Host) : List Host × NetworkH :=
  let p := copyHosts s n.hostIds
  (p.1, ⟨n.title, p.2⟩)

/-- `Network._render` lifted to the heap model: dereference each host id. -/
def NetworkH.render (s : List Host) (n : NetworkH) : List String :=
  ("Network: " ++ n.title) ::
    renderList (fun i pre b => Host.render (getHost s i) pre b) "" n.hostIds

/-- `Node.draw` lifted to the heap model. -/
def NetworkH.draw (s : List Host) (n : NetworkH) : String :=
  drawLoop "" (NetworkH.render s n)

/-! ### Spec-side definitions (used only to state claims) -/

/-- Spec-side address rendering: an address line gets the `\-` connector
exactly when it is the final address AND the hardware collection is empty;
every earlier address gets `+-`. -/
def addrLinesSpec (sub : String) (hwEmpty : Bool) : List String → List String
  | [] => []
  | [ip] => [sub ++ connector hwEmpty ++ ip]
  | ip :: ip2 :: rest =>
      (sub ++ connector false ++ ip) :: addrLinesSpec sub hwEmpty (ip2 :: rest)

/-- Spec-side join: each line terminated by a newline character. -/
def joinedLines : List String → String
  | [] => ""
  | l :: rest => l ++ "\n" ++ joinedLines rest

/-- Spec-side prefix extension rule for composites: children receive
`p ++ "  "` when the composite was last, else `p ++ "| "`. -/
def childPrefixRule (pre : String) (is_last : Bool) : String :=
  pre ++ (if is_last then "  " else "| ")

/-- Expected line count of a hardware item: 1 for a leaf, 1 plus one line
per partition for a disk. -/
def Hw.size : Hw → Nat
  | .cpu _ _ => 1
  | .memory _ => 1
  | .disk _ parts => 1 + parts.length

/-- Expected line count of a host: its own line, one line per address, and
its hardware items' lines. -/
def Host.size (h : Host) : Nat :=
  1 + h.addrs.length + (h.hw.map Hw.size).sum

/-- Expected line count of a network: its own line plus its hosts' lines. -/
def Network.size (n : Network) : Nat :=
  1 + (n.hosts.map Host.size).sum

/-! ### Helper lemmas -/

theorem drawLoop_eq (ls : List String) :
    ∀ buf : String, drawLoop buf ls = buf ++ joinedLines ls := by
  induction ls with
  | nil => intro buf; simp [drawLoop, joinedLines]
  | cons l rest ih => intro buf; simp [drawLoop, joinedLines, ih, String.append_assoc]

theorem joinedLines_trailing :
    ∀ ls : List String, ls ≠ [] → ∃ s : String, joinedLines ls = s ++ "\n" := by
  intro ls
  induction ls with
  | nil => intro h; exact absurd rfl h
  | cons l rest ih =>
    intro _
    cases rest with
    | nil => exact ⟨l, by simp [joinedLines]⟩
    | cons m r2 =>
      obtain ⟨s, hs⟩ := ih (by simp)
      refine ⟨l ++ "\n" ++ s, ?_⟩
      rw [show joinedLines (l :: m :: r2) = (l ++ "\n") ++ joinedLines (m :: r2) from rfl,
        hs, ← String.append_assoc]

theorem node_render_cons (nd : Node) :
    ∃ l rest, Node.render nd "" true = l :: rest := by
  cases nd <;> exact ⟨_, _, rfl⟩

theorem addrLinesAux_length (sub : String) (total : Nat) (e : Bool) :
    ∀ (addrs : List String) (k : Nat),
      (addrLinesAux sub total e k addrs).length = addrs.length := by
  intro addrs
  induction addrs with
  | nil => intro k; rfl
  | cons ip rest ih => intro k; simp [addrLinesAux, ih]

theorem renderList_length (f : α → String → Bool → List String) (g : α → Nat)
    (hf : ∀ x pre b, (f x pre b).length = g x) :
    ∀ (l : List α) (sub : String), (renderList f sub l).length = (l.map g).sum := by
  intro l
  induction l with
  | nil => intro sub; rfl
  | cons x rest ih =>
    intro sub
    cases rest with
    | nil => simp [renderList, hf]
    | cons y r2 => simp [renderList, hf, ih]

theorem sum_map_one (l : List α) : (l.map (fun _ => (1 : Nat))).sum = l.length := by
  induction l with
  | nil => rfl
  | cons x t ih => simp [ih]; omega

theorem renderList_getHost (S : List Host) :
    ∀ (ids : List Nat) (sub : String),
      renderList (fun i pre b => Host.render (getHost S i) pre b) sub ids =
        renderList Host.render sub (ids.map (getHost S)) := by
  intro ids
  induction ids with
  | nil => intro sub; rfl
  | cons x rest ih =>
    intro sub
    cases rest with
    | nil => rfl
    | cons y r2 => simp [renderList, ih]

theorem addrLinesAux_false (sub : String) :
    ∀ (addrs : List String) (k total : Nat),
      addrLinesAux sub total false k addrs = addrLinesSpec sub false addrs := by
  intro addrs
  induction addrs with
  | nil => intro k total; rfl
  | cons ip rest ih =>
    intro k total
    cases rest with
    | nil =>
      show (sub ++ connector (decide (k = total - 1) && false) ++ ip) ::
          addrLinesAux sub total false (k + 1) [] = addrLinesSpec sub false [ip]
      rw [Bool.and_false]
      rfl
    | cons ip2 r2 =>
      show (sub ++ connector (decide (k = total - 1) && false) ++ ip) ::
          addrLinesAux sub total false (k + 1) (ip2 :: r2) =
        addrLinesSpec sub false (ip :: ip2 :: r2)
      rw [Bool.and_false, ih (k + 1) total]
      rfl

theorem addrLinesAux_true (sub : String) :
    ∀ (addrs : List String) (k : Nat),
      addrLinesAux sub (k + addrs.length) true k addrs = addrLinesSpec sub true addrs := by
  intro addrs
  induction addrs with
  | nil => intro k; rfl
  | cons ip rest ih =>
    intro k
    cases rest with
    | nil => simp [addrLinesAux, addrLinesSpec]
    | cons ip2 r2 =>
      have hT : k + (ip :: ip2 :: r2).length = (k + 1) + (ip2 :: r2).length := by
        simp [List.length_cons]; omega
      rw [hT]
      have hflag : (decide (k = (k + 1) + (ip2 :: r2).length - 1) && true) = false := by
        simp [List.length_cons]; omega
      show (sub ++ connector (decide (k = (k + 1) + (ip2 :: r2).length - 1) && true) ++ ip) ::
          addrLinesAux sub ((k + 1) + (ip2 :: r2).length) true (k + 1) (ip2 :: r2) =
        addrLinesSpec sub true (ip :: ip2 :: r2)

      rw [hflag, ih (k + 1)]
      rfl

theorem getHost_append_left (s t : List Host) (i : Nat) (hi : i < s.length) :
    getHost (s ++ t) i = getHost s i := by
  unfold getHost
  rw [List.getElem?_append_left hi]

theorem getHost_set_ne (s : List Host) (i j : Nat) (h : Host) (hne : j ≠ i) :
    getHost (setHost s j h) i = getHost s i := by
  unfold getHost setHost
  rw [List.getElem?_set_ne hne]

theorem copyHosts_fst (ids : List Nat) :
    ∀ s : List Host, ∃ t, (copyHosts s ids).1 = s ++ t := by
  induction ids with
  | nil => intro s; exact ⟨[], by simp [copyHosts]⟩
  | cons i rest ih =>
    intro s
    obtain ⟨t, ht⟩ := ih (s ++ [getHost s i])
    exact ⟨[getHost s i] ++ t, by simp [copyHosts, ht]⟩

theorem copyHosts_fresh (ids : List Nat) :
    ∀ (s : List Host) (j : Nat), j ∈ (copyHosts s ids).2 → s.length ≤ j := by
  induction ids with
  | nil => intro s j hj; simp [copyHosts] at hj
  | cons i rest ih =>
    intro s j hj
    simp only [copyHosts, List.mem_cons] at hj
    rcases hj with hj | hj
    · omega
    · have h2 := ih (s ++ [getHost s i]) j hj
      simp at h2
      omega

theorem copyHosts_map (ids : List Nat) :
    ∀ s : List Host, (∀ i ∈ ids, i < s.length) →
      ((copyHosts s ids).2).map (getHost (copyHosts s ids).1) = ids.map (getHost s) := by
  induction ids with
  | nil => intro s _; rfl
  | cons i rest ih =>
    intro s wf
    obtain ⟨t, ht⟩ := copyHosts_fst rest (s ++ [getHost s i])
    have hlen : s.length < (s ++ [getHost s i]).length := by simp
    have h1 : getHost (copyHosts (s ++ [getHost s i]) rest).1 s.length = getHost s i := by
      rw [ht, getHost_append_left (s ++ [getHost s i]) t s.length hlen]
      unfold getHost
      rw [List.getElem?_concat_length]
      rfl
    have h2 := ih (s ++ [getHost s i])
      (fun x hx => lt_of_lt_of_le (wf x (List.mem_cons_of_mem i hx)) (by simp))
    have h3 : rest.map (getHost (s ++ [getHost s i])) = rest.map (getHost s) := by
      apply List.map_congr_left
      intro x hx
      exact getHost_append_left s [getHost s i] x (wf x (List.mem_cons_of_mem i hx))
    simp only [copyHosts, List.map_cons]
    rw [h1, h2, h3]

theorem findHostList_none (q : String) :
    ∀ l : List Host, (findHostList q l = none ↔ ∀ h ∈ l, ¬(h.name = q)) := by
  intro l
  induction l with
  | nil => simp [findHostList]
  | cons hd tl ih =>
    by_cases hq : hd.name = q
    · simp [findHostList, hq]
    · simp [findHostList, hq, ih]

theorem findHostList_some (q : String) :
    ∀ (l : List Host) (h : Host), findHostList q l = some h →
      h.name = q ∧ ∃ i : Nat, l[i]? = some h ∧
        ∀ j, j < i → ∀ h2 : Host, l[j]? = some h2 → ¬(h2.name = q) := by
  intro l
  induction l with
  | nil => intro h hf; simp [findHostList] at hf
  | cons hd tl ih =>
    intro h hf
    by_cases hq : hd.name = q
    · simp only [findHostList, if_pos hq, Option.some.injEq] at hf
      subst hf
      exact ⟨hq, 0, by simp, fun j hj => absurd hj (by omega)⟩
    · simp only [findHostList, if_neg hq] at hf
      obtain ⟨hn, i, hi, hj⟩ := ih h hf
      refine ⟨hn, i + 1, by simpa using hi, ?_⟩
      intro j hjlt h2 hh2
      cases j with
      | zero =>
        simp at hh2
        rw [← hh2]
        exact hq
      | succ j2 =>
        exact hj j2 (by omega) h2 (by simpa using hh2)

theorem part_render_length (pt : Part) (pre : String) (b : Bool) :
    (Part.render pt pre b).length = 1 := rfl

theorem hw_render_length (c : Hw) (pre : String) (b : Bool) :
    (Hw.render c pre b).length = c.size := by
  cases c with
  | cpu cores mhz => rfl
  | memory mib => rfl
  | disk gib parts =>
    have h := renderList_length Part.render (fun _ => (1 : Nat))
      (fun x pre b => rfl) parts (pre ++ (if b then "  " else "| "))
    simp only [Hw.render, Hw.size, List.length_cons, h, sum_map_one]
    omega

theorem host_render_length (h : Host) (pre : String) (b : Bool) :
    (Host.render h pre b).length = h.size := by
  have ha := addrLinesAux_length (pre ++ (if b then "  " else "| "))
    (h.addrs.length + h.hw.length) h.hw.isEmpty h.addrs 0
  have hh := renderList_length Hw.render Hw.size hw_render_length h.hw
    (pre ++ (if b then "  " else "| "))
  simp only [Host.render, Host.size, List.length_cons, List.length_append, ha, hh]
  omega

theorem network_render_length (n : Network) (pre : String) (b : Bool) :
    (Network.render n pre b).length = n.size := by
  have hh := renderList_length Host.render Host.size host_render_length n.hosts ""
  simp only [Network.render, Network.size, List.length_cons, hh]
  omega

/-- Fixture network for the search claims: a duplicate name `a`, the first
occurrence at index 1. -/
def wNet : Network := ⟨"N", [Host.mk "b" [] [], Host.mk "a" [] [], Host.mk "a" ["x"] []]⟩

/-- Fixture store and heap network for the clone claims. -/
def wStore : List Host := [Host.mk "orig" [] []]

def wNetH : NetworkH := ⟨"t", [0]⟩

/-! ### Claim theorems -/

/-- C1: a Host named `server1` with the single address `192.168.1.1`, a
Cpu(4, 2500) and a Memory(16000), rendered as a last top-level child
(prefix `""`, is_last true), yields exactly the four expected lines in
order. -/
theorem host_mixed_children_render :
    Host.render ⟨"server1", ["192.168.1.1"], [.cpu 4 2500, .memory 16000]⟩ "" true =
      ["\\-Host: server1", "  +-192.168.1.1", "  +-CPU, 4 cores @ 2500MHz",
        "  \\-Memory, 16000 MiB"] := by
  decide

/-- C2: in every Host's rendered child list, an address line gets the
last-sibling connector exactly when it is the final address and the hardware
collection is empty, while a hardware item gets the last-sibling flag exactly
when it is the final element of the hardware collection (which is what
`renderList` gives its final element), regardless of the addresses. -/
theorem host_last_sibling_rule (h : Host) (pre : String) (b : Bool) :
    Host.render h pre b =
      (pre ++ connector b ++ "Host: " ++ h.name) ::
        (addrLinesSpec (childPrefixRule pre b) h.hw.isEmpty h.addrs ++
          renderList Hw.render (childPrefixRule pre b) h.hw) := by
  obtain ⟨nm, addrs, hw⟩ := h
  cases hw with
  | nil =>
    have ha := addrLinesAux_true (childPrefixRule pre b) addrs 0
    simp only [Nat.zero_add, childPrefixRule] at ha
    simp only [Host.render, childPrefixRule, List.isEmpty_nil, List.length_nil,
      Nat.add_zero]
    rw [ha]
  | cons c rest =>
    simp only [Host.render, childPrefixRule, List.isEmpty_cons]
    rw [addrLinesAux_false]

/-- C3 counterexample: the Network composite does not pass
`p ++ "  "` / `p ++ "| "` to its children — it passes `""`.  At prefix `""`
with is_last true, the claim would require each host to be rendered with
prefix `"  "`, but the code renders it with prefix `""`. -/
theorem network_child_prefix_cex :
    ¬(Network.render ⟨"t", [⟨"h", [], []⟩]⟩ "" true =
      ("Network: " ++ "t") ::
        renderList Host.render (childPrefixRule "" true) [⟨"h", [], []⟩]) := by
  decide

/-- C3 amended: Disk and Host pass `p ++ "  "` (if last) or `p ++ "| "`
(otherwise) to every child's recursive render call; Network instead passes
the empty prefix `""` to every host regardless of its own prefix and flag. -/
theorem child_prefix_amended :
    (∀ (gib : Int) (parts : List Part) (pre : String) (b : Bool),
      Hw.render (.disk gib parts) pre b =
        (pre ++ connector b ++ "HDD, " ++ toString gib ++ " GiB") ::
          renderList Part.render (childPrefixRule pre b) parts) ∧
    (∀ (h : Host) (pre : String) (b : Bool),
      Host.render h pre b =
        (pre ++ connector b ++ "Host: " ++ h.name) ::
          (addrLinesAux (childPrefixRule pre b) (h.addrs.length + h.hw.length)
              h.hw.isEmpty 0 h.addrs ++
            renderList Hw.render (childPrefixRule pre b) h.hw)) ∧
    (∀ (n : Network) (pre : String) (b : Bool),
      Network.render n pre b =
        ("Network: " ++ n.title) :: renderList Host.render "" n.hosts) :=
  ⟨fun _ _ _ _ => rfl, fun _ _ _ => rfl, fun _ _ _ => rfl⟩

/-- C4: for all integers cores and mhz, a Cpu rendered with prefix `""` and
is_last true yields the single line `\-CPU, <cores> cores @ <mhz>MHz`, with
is_last false the connector is `+-`, and Cpu(4, 2500) yields the concrete
expected line. -/
theorem cpu_render_spec (cores mhz : Int) :
    Hw.render (.cpu cores mhz) "" true =
      ["\\-CPU, " ++ toString cores ++ " cores @ " ++ toString mhz ++ "MHz"] ∧
    Hw.render (.cpu cores mhz) "" false =
      ["+-CPU, " ++ toString cores ++ " cores @ " ++ toString mhz ++ "MHz"] ∧
    Hw.render (.cpu 4 2500) "" true = ["\\-CPU, 4 cores @ 2500MHz"] := by
  refine ⟨?_, ?_, by decide⟩
  · show [("" : String) ++ connector true ++ "CPU, " ++ toString cores ++
        " cores @ " ++ toString mhz ++ "MHz"] = _
    rw [show (("" : String) ++ connector true ++ "CPU, ") = "\\-CPU, " from rfl]
  · show [("" : String) ++ connector false ++ "CPU, " ++ toString cores ++
        " cores @ " ++ toString mhz ++ "MHz"] = _
    rw [show (("" : String) ++ connector false ++ "CPU, ") = "+-CPU, " from rfl]

/-- C5: a Host with no addresses and no hardware renders exactly one line:
the prefix, the connector chosen by is_last, and `Host: <name>`. -/
theorem host_empty_render (nm pre : String) (b : Bool) :
    Host.render ⟨nm, [], []⟩ pre b = [pre ++ connector b ++ "Host: " ++ nm] := by
  simp [Host.render, addrLinesAux, renderList]

/-- C6: for every node, draw equals the lines of `render "" true` each
terminated by a newline (hence a trailing newline), and a Network root's
first rendered line is exactly `Network: <title>` with no prefix or
connector. -/
theorem draw_spec :
    (∀ nd : Node, nd.draw = joinedLines (nd.render "" true) ∧
      ∃ s : String, nd.draw = s ++ "\n") ∧
    ∀ n : Network, ((Node.network n).render "" true).head? =
      some ("Network: " ++ n.title) := by
  constructor
  · intro nd
    have hd : nd.draw = joinedLines (nd.render "" true) := by
      unfold Node.draw
      rw [drawLoop_eq, String.empty_append]
    refine ⟨hd, ?_⟩
    obtain ⟨l, rest, hr⟩ := node_render_cons nd
    obtain ⟨s, hs⟩ := joinedLines_trailing (nd.render "" true) (by rw [hr]; simp)
    exact ⟨s, by rw [hd, hs]⟩
  · intro n
    rfl

/-- C7: find_host returns the first host (in insertion order) whose name
equals the query by exact string equality, and `none` (not an error) when no
host matches; with duplicate names the earliest-inserted host wins. -/
theorem find_host_spec (n : Network) (q : String) :
    (n.find_host q = none ↔ ∀ h ∈ n.hosts, ¬(h.name = q)) ∧
    ∀ h : Host, n.find_host q = some h →
      h.name = q ∧ ∃ i : Nat, n.hosts[i]? = some h ∧
        ∀ j, j < i → ∀ h2 : Host, n.hosts[j]? = some h2 → ¬(h2.name = q) :=
  ⟨findHostList_none q n.hosts, fun h hf => findHostList_some q n.hosts h hf⟩

/-- Witness for C7: on the fixture network the duplicate name `a` resolves to
the host at index 1, the earliest match, and every earlier host mismatches. -/
theorem find_host_spec_witness :
    (Host.mk "a" [] []).name = "a" ∧
      ∃ i : Nat, wNet.hosts[i]? = some (Host.mk "a" [] []) ∧
        ∀ j, j < i → ∀ h2 : Host, wNet.hosts[j]? = some h2 → ¬(h2.name = "a") :=
  (find_host_spec wNet "a").2 (Host.mk "a" [] []) (by decide)

/-- C8: after a clone, mutating any host object reachable from the clone
leaves every host object of the original exactly as before the clone, and
mutating any host object of the original leaves the clone's host objects
unchanged. -/
theorem clone_independent (s : List Host) (n : NetworkH)
    (wf : ∀ i ∈ n.hostIds, i < s.length) :
    (∀ j ∈ (NetworkH.clone n s).2.hostIds, ∀ hNew : Host, ∀ i ∈ n.hostIds,
      getHost (setHost (NetworkH.clone n s).1 j hNew) i = getHost s i) ∧
    (∀ i ∈ n.hostIds, ∀ hNew : Host, ∀ j ∈ (NetworkH.clone n s).2.hostIds,
      getHost (setHost (NetworkH.clone n s).1 i hNew) j =
        getHost (NetworkH.clone n s).1 j) := by
  obtain ⟨t, ht⟩ := copyHosts_fst n.hostIds s
  constructor
  · intro j hj hNew i hi
    have hjs : s.length ≤ j := copyHosts_fresh n.hostIds s j hj
    have his : i < s.length := wf i hi
    rw [getHost_set_ne _ i j hNew (by omega)]
    show getHost (copyHosts s n.hostIds).1 i = getHost s i
    rw [ht]
    exact getHost_append_left s t i his
  · intro i hi hNew j hj
    have hjs : s.length ≤ j := copyHosts_fresh n.hostIds s j hj
    have his : i < s.length := wf i hi
    exact getHost_set_ne _ j i hNew (by omega)

/-- Witness for C8: in the singleton fixture store, editing the cloned host
object (id 1) leaves the original host object (id 0) unchanged. -/
theorem clone_independent_witness :
    getHost (setHost (NetworkH.clone wNetH wStore).1 1 (Host.mk "edited" [] [])) 0 =
      getHost wStore 0 :=
  (clone_independent wStore wNetH (by decide)).1 1 (by decide)
    (Host.mk "edited" [] []) 0 (by decide)

/-- C9: before any mutation, drawing the clone produces text
character-for-character identical to drawing the original. -/
theorem clone_draw_eq (s : List Host) (n : NetworkH)
    (wf : ∀ i ∈ n.hostIds, i < s.length) :
    NetworkH.draw (NetworkH.clone n s).1 (NetworkH.clone n s).2 =
      NetworkH.draw s n := by
  unfold NetworkH.draw NetworkH.render
  have hclone2 : (NetworkH.clone n s).2.hostIds = (copyHosts s n.hostIds).2 := rfl
  have hclone2t : (NetworkH.clone n s).2.title = n.title := rfl
  have hclone1 : (NetworkH.clone n s).1 = (copyHosts s n.hostIds).1 := rfl
  rw [hclone2, hclone2t, hclone1, renderList_getHost, renderList_getHost,
    copyHosts_map n.hostIds s wf]

/-- Witness for C9: drawing the clone of the fixture network over the fixture
store equals drawing the original. -/
theorem clone_draw_eq_witness :
    NetworkH.draw (NetworkH.clone wNetH wStore).1 (NetworkH.clone wNetH wStore).2 =
      NetworkH.draw wStore wNetH :=
  clone_draw_eq wStore wNetH (by decide)

/-- C10: rendering yields exactly one line per node plus one line per
address: leaves yield 1 line, a Disk yields 1 plus one per partition, a Host
yields 1 plus its address count plus its hardware's lines, and a Network
yields 1 plus its hosts' lines. -/
theorem render_line_counts :
    (∀ (pt : Part) (pre : String) (b : Bool), (Part.render pt pre b).length = 1) ∧
    (∀ (c : Hw) (pre : String) (b : Bool), (Hw.render c pre b).length = c.size) ∧
    (∀ (h : Host) (pre : String) (b : Bool), (Host.render h pre b).length = h.size) ∧
    (∀ (n : Network) (pre : String) (b : Bool),
      (Network.render n pre b).length = n.size) :=
  ⟨part_render_length, hw_render_length, host_render_length, network_render_length⟩

end Olyahm
